import Mathlib

/-!
Verification development for the measurement engine of `node-latency-for-k8s`
(`pkg/latency/latency.go`), shallowly embedded in Lean.

Modelling conventions:
* `time.Time` values are modelled as `Int` nanoseconds since the Unix epoch
  (`time.Time.UnixNano`); `UnixMicro` is then floor division by 1000, and
  `time.Time.Sub` is plain `Int` subtraction (`time.Duration` nanoseconds;
  the saturation of `Sub` at `math.MaxInt64` is out of range for every value
  considered here and is not modelled).
* Go errors are modelled as `Option String` (an error message, `none` = nil),
  and `error`-returning functions as `Except String`.
* A `sources.Source`'s `Find` method (the behaviour of the external source
  bound to an event) is a parameter `find : Event → List Occurrence × Option String`,
  exactly the data `event.Src.Find(event)` produces in `Measure`.
* `sort.Slice` is modelled twice: `sortTimings` is a stable insertion sort by
  the comparator from the source, which coincides with `sort.Slice` whenever at
  most 12 timings are collected (Go's `pdqsort` runs its insertion-sort path
  for ranges of length ≤ 12, and insertion sort is stable); `sortSliceGo` is a
  faithful transcription of Go's `pdqsort` (Go ≥ 1.19 `sort.Slice`), used to
  settle the stability question for longer slices.
-/

set_option maxRecDepth 100000

namespace NLK

/-- One raw match produced by a source for an event (`sources.FindResult` as
consumed by `Measure`: timestamp and comment). Modelled from the spec:
`pkg/sources` is external to the embedded package; the spec's "Occurrence"
carries a timestamp and an optional free-text comment. -/
structure Occurrence where
  timestamp : Int
  comment : String
  deriving DecidableEq, Inhabited

/-- A registered source, referenced by name. Modelled from the spec: the core
only needs `name()` for registry lookup; `find` is passed separately and
`clearCache` has no observable state here (cache effects across retries are
modelled by letting the find behaviour vary per pass). -/
structure Source where
  name : String
  deriving DecidableEq, Inhabited

/-- An event descriptor (`sources.Event` as read by `pkg/latency`). Modelled
from the spec: name (display), metric (stable identifier), sourceName (registry
key), the late-bound resolved source, and the terminal flag. The match selector
and the extraction/comment functions live inside the `find` behaviour. -/
structure Event where
  name : String
  metric : String
  srcName : String
  src : Option Source
  terminal : Bool
  deriving DecidableEq, Inhabited

/-- `Timing` from `latency.go`: the event it came from, its timestamp, the
normalized delta `T`, a comment, and the per-event error. -/
structure Timing where
  event : Event
  timestamp : Int
  t : Int
  comment : String
  error : Option String
  deriving DecidableEq, Inhabited

/-- `Metadata` from `latency.go`. -/
structure Metadata where
  region : String
  instanceType : String
  instanceID : String
  accountID : String
  architecture : String
  availabilityZone : String
  privateIP : String
  amiID : String
  deriving DecidableEq, Inhabited

/-- The EC2 instance-identity document returned by the IMDS client
(`imds.GetInstanceIdentityDocument`), restricted to the fields `getMetadata`
reads. Modelled from the spec: the metadata resolver contract returns
environment identity attributes or an error. -/
structure IdDoc where
  region : String
  instanceType : String
  instanceID : String
  accountID : String
  architecture : String
  availabilityZone : String
  imageID : String
  privateIP : String
  deriving DecidableEq, Inhabited

/-- `Measurement` from `latency.go`: optional metadata plus the ordered
timings. -/
structure Measurement where
  metadata : Option Metadata
  timings : List Timing
  deriving DecidableEq, Inhabited

/-- `Measurer` from `latency.go`: the name→source registry (a Go map, modelled
as an association list with overwriting insert), the ordered registered events,
the metadata cell and the optional IMDS client. The client is modelled by the
response it produces when called (`Except`: identity document or error). -/
structure Measurer where
  sources : List (String × Source)
  events : List Event
  metadata : Option Metadata
  imdsClient : Option (Except String IdDoc)
  deriving Inhabited

/-- `time.Time.UnixMicro` on a nanosecond timestamp: floor division by 1000
(`unixSec*1e6 + nsec/1e3` with `0 ≤ nsec < 1e9` equals `⌊ns/1000⌋`). -/
def unixMicro (ns : Int) : Int := Int.fdiv ns 1000

/-- The comparator passed to `sort.Slice` in `Measure`:
`timings[i].Timestamp.UnixMicro() < timings[j].Timestamp.UnixMicro()`. -/
def timingLess (a b : Timing) : Bool := unixMicro a.timestamp < unixMicro b.timestamp

/-- The collection loop of `Measure`: for each registered event in order, call
its source's `Find` and turn every occurrence into a `Timing` carrying the
event, the occurrence's timestamp and comment, and the per-event error. `T` is
the zero `time.Duration` at this point. -/
def collectTimings (events : List Event) (find : Event → List Occurrence × Option String) :
    List Timing :=
  events.flatMap fun e =>
    ((find e).1).map fun r =>
      { event := e, timestamp := r.timestamp, t := 0, comment := r.comment, error := (find e).2 }

/-- Insertion of `x` into a prefix already sorted by `timingLess`: `x` is
placed before the first element strictly greater at microsecond resolution.
This is what one step of Go's insertion sort (`for j := i; j > a &&
data.Less(j, j-1); j-- { data.Swap(j, j-1) }`) does to the sorted prefix. -/
def insertRight (l : List Timing) (x : Timing) : List Timing :=
  match l with
  | [] => [x]
  | y :: ys => if timingLess x y then x :: y :: ys else y :: insertRight ys x

/-- List rendering of the `sort.Slice` call in `Measure` on its insertion-sort
path: a stable sort by `timingLess` (elements are bubbled in one after the
other, production order is kept among equal-microsecond timings). Exact for at
most 12 timings; `sortSliceGo` below is the unrestricted `pdqsort`. -/
def sortTimings (l : List Timing) : List Timing :=
  l.foldl insertRight []

/-- Index bookkeeping for `lo.FindLastIndexOf`: the index of the last element
satisfying the predicate, if any, counting from `i` for the head. -/
def findLastIdxAux (p : α → Bool) : List α → Nat → Option Nat
  | [], _ => none
  | x :: xs, i =>
    match findLastIdxAux p xs (i + 1) with
    | some j => some j
    | none => if p x then some i else none

/-- `lo.FindLastIndexOf(timings, pred)`'s index component. -/
def findLastIdx (p : α → Bool) (l : List α) : Option Nat := findLastIdxAux p l 0

/-- The truncation step of `Measure`: if some timing's event is terminal, keep
the sorted sequence only up to (and including) the last such timing
(`timings = timings[:lastTerminalIndex+1]`); otherwise keep everything. -/
def truncAtLastTerminal (l : List Timing) : List Timing :=
  match findLastIdx (fun t => t.event.terminal) l with
  | some i => l.take (i + 1)
  | none => l

/-- The normalization step of `Measure`: every timing's `T` becomes its
timestamp minus the first timing's timestamp (`t.Timestamp.Sub(timings[0].Timestamp)`);
an empty sequence is left alone (the loop body never runs). -/
def normalizeT (l : List Timing) : List Timing :=
  match l with
  | [] => []
  | x :: _ => l.map fun t => { t with t := t.timestamp - x.timestamp }

/-- The timing pipeline of `Measure`: collect, sort chronologically, truncate
after the last terminal timing, normalize `T`. -/
def measureTimings (events : List Event) (find : Event → List Occurrence × Option String) :
    List Timing :=
  normalizeT (truncAtLastTerminal (sortTimings (collectTimings events find)))

/-- Lookup in the source registry (`GetSource`): Go map indexing; the
association list has unique keys because registration overwrites. -/
def getSource (m : Measurer) (name : String) : Option Source :=
  (m.sources.find? fun p => p.1 = name).map Prod.snd

/-- Overwriting insert used by `RegisterSources` (`m.sources[src.Name()] = src`). -/
def setSource (ss : List (String × Source)) (src : Source) : List (String × Source) :=
  if ss.any (fun p => p.1 = src.name) then
    ss.map fun p => if p.1 = src.name then (p.1, src) else p
  else ss ++ [(src.name, src)]

/-- `RegisterSources`: insert each source under its name, last write wins. -/
def registerSources (m : Measurer) (srcs : List Source) : Measurer :=
  { m with sources := srcs.foldl setSource m.sources }

/-- The registration error built for an event whose source is missing:
`fmt.Errorf("unable to register event \"%s\" because source \"%s\" is not registered", e.Name, e.Src)`.
The second verb prints the *bound source* field (nil at that point, rendered
by `fmt` as `%!s(<nil>)`), not the source name. -/
def registerErrMsg (e : Event) : String :=
  "unable to register event \x22" ++ e.name ++ "\x22 because source \x22" ++
    (match e.src with
     | none => "%!s(<nil>)"
     | some s => s.name) ++ "\x22 is not registered"

/-- `RegisterEvents`: for each event in order, look up its source name; on a
miss append a registration error (`multierr.Append`) and skip the event, on a
hit bind the source onto the event and append it to the event list. Returns
the measurer and the accumulated errors (`[]` models a nil aggregate). -/
def registerEvents (m : Measurer) (evs : List Event) : Measurer × List String :=
  evs.foldl
    (fun acc e =>
      match getSource acc.1 e.srcName with
      | none => (acc.1, acc.2 ++ [registerErrMsg e])
      | some s => ({ acc.1 with events := acc.1.events ++ [{ e with src := some s }] }, acc.2))
    (m, [])

/-- `getMetadata`: return the cached metadata if present; otherwise call the
IMDS client (errors if absent) and build a `Metadata` from the identity
document. The second component records whether the IMDS client was invoked.
Note the Go function returns the freshly built value but never assigns
`m.metadata`, so no caller-visible state changes; accordingly no updated
`Measurer` is returned here. -/
def getMetadata (m : Measurer) : Except String Metadata × Bool :=
  match m.metadata with
  | some md => (.ok md, false)
  | none =>
    match m.imdsClient with
    | none => (.error "imds client is nil", false)
    | some resp =>
      match resp with
      | .error e => (.error ("unable to retrieve instance-identity document: " ++ e), true)
      | .ok idDoc =>
        (.ok { region := idDoc.region
               instanceType := idDoc.instanceType
               instanceID := idDoc.instanceID
               accountID := idDoc.accountID
               architecture := idDoc.architecture
               availabilityZone := idDoc.availabilityZone
               privateIP := idDoc.privateIP
               amiID := idDoc.imageID }, true)

/-- `Measure`: one timing run. Metadata errors are ignored
(`metadata, _ := m.getMetadata(ctx)`), so a failed resolution yields
`metadata = none` and the measurement is still produced. -/
def Measurer.measure (m : Measurer) (find : Event → List Occurrence × Option String) :
    Measurement :=
  { metadata := (getMetadata m).1.toOption, timings := measureTimings m.events find }

/-- One `Measure` call viewed with its effect on the `Measurer` and on the
IMDS client made explicit: the measurement, the measurer afterwards, and
whether the IMDS client was called. `Measure` and `getMetadata` assign no
`Measurer` field (in particular `getMetadata` never stores the resolved
metadata), so the measurer comes back unchanged. -/
def measurePassFull (m : Measurer) (find : Event → List Occurrence × Option String) :
    Measurement × Measurer × Bool :=
  (m.measure find, m, (getMetadata m).2)

/-- The completion decision at the bottom of each `MeasureUntil` pass
(`terminalEvents`, `measuredEvents`, `measuredTerminalEvents` and the
`if`/`else if` that sets `done`). -/
def untilDone (events : List Event) (meas : Measurement) : Bool :=
  let terminalEvents := events.countP fun e => e.terminal
  let measuredEvents := meas.timings.countP fun t => t.error.isNone
  let measuredTerminalEvents := meas.timings.countP fun t => t.event.terminal && t.error.isNone
  if 0 < terminalEvents ∧ terminalEvents = measuredTerminalEvents then true
  else if terminalEvents = 0 ∧ measuredEvents ≥ events.length then true
  else false

/-- The completion policy in the words of the spec (§4.3): if any terminal
events are registered, done exactly when the error-free terminal timing count
equals the registered terminal count; otherwise done exactly when the
error-free timing count reaches the total registered event count. -/
def untilDoneSpec (events : List Event) (meas : Measurement) : Bool :=
  let terminalEvents := events.countP fun e => e.terminal
  if 0 < terminalEvents then
    meas.timings.countP (fun t => t.event.terminal && t.error.isNone) = terminalEvents
  else
    events.length ≤ meas.timings.countP fun t => t.error.isNone

/-- The `MeasureUntil` loop. Time is modelled by the clock advancing
`retryDelay` at each sleep (a pass itself takes zero model time), so the
elapsed time checked by `time.Since(startTime) < timeout` after `k` sleeps is
`k * retryDelay`. `findSeq k` is the source behaviour seen by pass `k`
(caches are cleared between passes, so each pass may observe fresh data).
`none` models the nil `*Measurement` the loop variable starts from. The fuel
argument only bounds the recursion; `measureUntilGo` supplies enough fuel for
every execution with a positive retry delay. -/
def measureUntilAux (m : Measurer) (findSeq : Nat → Event → List Occurrence × Option String)
    (timeout retryDelay : Int) :
    Nat → Int → Nat → Option Measurement → Option Measurement
  | 0, _, _, meas => meas
  | fuel + 1, elapsed, k, meas =>
    if elapsed < timeout then
      let meas' := m.measure (findSeq k)
      if untilDone m.events meas' then some meas'
      else measureUntilAux m findSeq timeout retryDelay fuel (elapsed + retryDelay) (k + 1) (some meas')
    else meas

/-- `MeasureUntil`: run passes until done or timed out, returning the latest
measurement (`none` when the loop body never ran). -/
def measureUntilGo (m : Measurer) (findSeq : Nat → Event → List Occurrence × Option String)
    (timeout retryDelay : Int) : Option Measurement :=
  measureUntilAux m findSeq timeout retryDelay (timeout.toNat + 1) 0 0 none

/-- `metricDimensions`: the experiment label plus, when metadata is present,
instance type, AMI id, region and availability zone. A Go map has no
observable order; the model fixes the insertion order of the source text. -/
def metricDimensions (meas : Measurement) (experiment : String) : List (String × String) :=
  match meas.metadata with
  | none => [("experiment", experiment)]
  | some md =>
    [("experiment", experiment), ("instanceType", md.instanceType), ("amiID", md.amiID),
      ("region", md.region), ("availabilityZone", md.availabilityZone)]

/-- `lo.UniqBy(m.Timings, metric)`: first timing per metric identifier, in
order of first occurrence. -/
def uniqByMetricAux : List Timing → List String → List Timing
  | [], _ => []
  | t :: ts, seen =>
    if seen.contains t.event.metric then uniqByMetricAux ts seen
    else t :: uniqByMetricAux ts (t.event.metric :: seen)

/-- `lo.UniqBy(m.Timings, func(t) { return t.Event.Metric })`. -/
def uniqByMetric (l : List Timing) : List Timing := uniqByMetricAux l []

/-- One prometheus gauge child after `RegisterMetrics`: the metric name of its
`GaugeVec`, the label values it was created `With`, and its current value.
The value is kept in `time.Duration` nanoseconds; `T.Seconds()` only rescales
it by the constant 1e9 on the way into the float gauge. -/
structure PromSample where
  metric : String
  dims : List (String × String)
  value : Int
  deriving DecidableEq, Inhabited

/-- `collector.With(dimensions).Set(v)`: the child of the gauge vector
`metric` keyed by the label values `dims` is created if needed and its value
set (overwriting any previous value of the same child). -/
def promSet (st : List PromSample) (metric : String) (dims : List (String × String))
    (v : Int) : List PromSample :=
  if st.any (fun s => s.metric = metric ∧ s.dims = dims) then
    st.map fun s => if s.metric = metric ∧ s.dims = dims then { s with value := v } else s
  else st ++ [⟨metric, dims, v⟩]

/-- `RegisterMetrics` against a fresh registry: one `GaugeVec` is registered
per unique metric identifier (registration cannot fail on a fresh registry
because the identifiers are de-duplicated first), then every timing performs
`With(dimensions).Set(timing.T.Seconds())` on its metric's collector; a timing
whose metric has no collector is skipped with a log line. The result is the
final gauge state. -/
def registerMetrics (meas : Measurement) (experiment : String) : List PromSample :=
  let dims := metricDimensions meas experiment
  let registered := (uniqByMetric meas.timings).map fun t => t.event.metric
  meas.timings.foldl
    (fun st t =>
      if registered.contains t.event.metric then promSet st t.event.metric dims t.t
      else st)
    []

/-- Value of the (unique) prometheus sample for a metric name, if any. -/
def promLookup (st : List PromSample) (metric : String) : Option Int :=
  (st.find? fun s => s.metric = metric).map fun s => s.value

/-- `EmitCloudWatchMetrics`: one `PutMetricData` call per timing, each datum
carrying the metric identifier, the dimension mapping and the elapsed value
(nanoseconds; `Seconds()` is the constant rescale). `put` models the
CloudWatch client: the error a call returns, if any. The result is the list
of posted data in order plus the accumulated (`multierr`) errors. -/
def emitCloudWatchMetrics (meas : Measurement) (experiment : String)
    (put : String × List (String × String) × Int → Option String) :
    List (String × List (String × String) × Int) × List String :=
  meas.timings.foldl
    (fun acc t =>
      let datum := (t.event.metric, metricDimensions meas experiment, t.t)
      (acc.1 ++ [datum],
       match put datum with
       | some e => acc.2 ++ [e]
       | none => acc.2))
    ([], [])

/-! ### Go's `sort.Slice` (pdqsort), transcribed

`Measure` sorts with `sort.Slice`, whose implementation since Go 1.19 is
pdqsort (`sort/zsortfunc.go`). The functions below transcribe that
implementation; the Go slice with its `Swap`/`Less` index operations is
modelled as a list with positional get/set/swap. Loops are written with a
fuel argument to make them structurally recursive; every call site passes
fuel exceeding the loop's iteration count (each scan moves an index
monotonically through a range of at most `b` cells, and the outer pdqsort
loop strictly shrinks `b - a`), so the transcription computes exactly what
the Go code computes on every input considered. -/

/-- Positional read of the slice (always in bounds in every execution). -/
def getIdx [Inhabited α] : List α → Nat → α
  | [], _ => default
  | x :: _, 0 => x
  | _ :: xs, n + 1 => getIdx xs n

/-- Positional write of the slice (always in bounds in every execution). -/
def setIdx : List α → Nat → α → List α
  | [], _, _ => []
  | _ :: xs, 0, v => v :: xs
  | x :: xs, n + 1, v => x :: setIdx xs n v

/-- `data.Swap(i, j)`. -/
def swapIdx [Inhabited α] (l : List α) (i j : Nat) : List α :=
  setIdx (setIdx l i (getIdx l j)) j (getIdx l i)

/-- `data.Less(i, j)` of `lessSwap`: compare the elements at two indices. -/
def lessAt [Inhabited α] (less : α → α → Bool) (d : List α) (i j : Nat) : Bool :=
  less (getIdx d i) (getIdx d j)

/-- `math/bits.Len`: bits needed to represent `n`; `bitsLen 0 = 0`. -/
def bitsLenAux : Nat → Nat → Nat
  | 0, _ => 0
  | fuel + 1, n => if n = 0 then 0 else bitsLenAux fuel (n / 2) + 1

/-- `math/bits.Len` with enough fuel for any argument below `2 ^ fuel`. -/
def bitsLen (n : Nat) : Nat := bitsLenAux (n + 1) n

/-- Inner loop of `insertionSort_func`: bubble the element at `j` left while
it is strictly less than its left neighbour and `j > a`. -/
def insertionBubble [Inhabited α] (less : α → α → Bool) (a : Nat) :
    List α → Nat → List α
  | d, 0 => d
  | d, j + 1 =>
    if a < j + 1 && lessAt less d (j + 1) j then
      insertionBubble less a (swapIdx d (j + 1) j) j
    else d

/-- Outer loop of `insertionSort_func`: `for i := a + 1; i < b; i++`; the fuel
exceeds the remaining iteration count `b - i` in every call. -/
def insertionSortGoAux [Inhabited α] (less : α → α → Bool) (a b : Nat) :
    Nat → Nat → List α → List α
  | 0, _, d => d
  | fuel + 1, i, d =>
    if i < b then insertionSortGoAux less a b fuel (i + 1) (insertionBubble less a d i) else d

/-- `insertionSort_func(data, a, b)`. -/
def insertionSortGo [Inhabited α] (less : α → α → Bool) (a b : Nat) (d : List α) :
    List α :=
  insertionSortGoAux less a b (b + 1) (a + 1) d

/-- `siftDown_func(data, lo, hi, first)` with `root` the running node; the
root at least doubles each step, so fuel `hi + 1` always suffices. -/
def siftDownGo [Inhabited α] (less : α → α → Bool) (hi first : Nat) :
    Nat → List α → Nat → List α
  | 0, d, _ => d
  | fuel + 1, d, root =>
    let child0 := 2 * root + 1
    if child0 < hi then
      let child := if child0 + 1 < hi && lessAt less d (first + child0) (first + child0 + 1) then
        child0 + 1 else child0
      if lessAt less d (first + root) (first + child) then
        siftDownGo less hi first fuel (swapIdx d (first + root) (first + child)) child
      else d
    else d

/-- Heap-building loop of `heapSort_func`: `for i := (hi-1)/2; i >= 0; i--`;
the counter is the Go index plus one. -/
def heapSortBuild [Inhabited α] (less : α → α → Bool) (first hi : Nat) :
    Nat → List α → List α
  | 0, d => d
  | i + 1, d => heapSortBuild less first hi i (siftDownGo less hi first (hi + 1) d i)

/-- Pop loop of `heapSort_func`: `for i := hi - 1; i >= 0; i--`; the counter is
the Go index plus one. -/
def heapSortPop [Inhabited α] (less : α → α → Bool) (first : Nat) :
    Nat → List α → List α
  | 0, d => d
  | i + 1, d =>
    heapSortPop less first i (siftDownGo less i first (i + 1) (swapIdx d first (first + i)) 0)

/-- `heapSort_func(data, a, b)`: build the heap, then pop. -/
def heapSortGo [Inhabited α] (less : α → α → Bool) (a b : Nat) (d : List α) : List α :=
  heapSortPop less a (b - a) (heapSortBuild less a (b - a) ((b - a - 1) / 2 + 1) d)

/-- The xorshift step of `sort`'s pattern-breaking PRNG, on 64-bit values
modelled as naturals reduced modulo `2 ^ 64`. -/
def xorshiftNext (r : Nat) : Nat :=
  let r1 := (Nat.xor r ((r <<< 13) % 2 ^ 64)) % 2 ^ 64
  let r2 := (Nat.xor r1 (r1 >>> 7)) % 2 ^ 64
  (Nat.xor r2 ((r2 <<< 17) % 2 ^ 64)) % 2 ^ 64

/-- `nextPowerOfTwo(length) = 1 << bits.Len(length)`. -/
def nextPowerOfTwo (length : Nat) : Nat := 1 <<< bitsLen length

/-- Swap loop of `breakPatterns_func`: three swaps driven by the PRNG. -/
def breakPatternsLoop [Inhabited α] (a idx length modulus : Nat) :
    Nat → Nat → List α → List α
  | _, 0, d => d
  | random, n + 1, d =>
    let random2 := xorshiftNext random
    let other0 := Nat.land random2 (modulus - 1)
    let other := if other0 ≥ length then other0 - length else other0
    breakPatternsLoop a idx length modulus random2 n (swapIdx d (idx - 1 + (2 - n)) (a + other))

/-- `breakPatterns_func(data, a, b)`: scatter three elements around the middle
using the xorshift PRNG seeded with the length. -/
def breakPatternsGo [Inhabited α] (a b : Nat) (d : List α) : List α :=
  let length := b - a
  if length ≥ 8 then
    let modulus := nextPowerOfTwo length
    let idx := a + (length / 4) * 2 - 1
    breakPatternsLoop a idx length modulus (length % 2 ^ 64) 3 d
  else d

/-- `order2_func`: order two indices by the data they point at, counting
swaps. -/
def order2Go [Inhabited α] (less : α → α → Bool) (d : List α) (a b swaps : Nat) :
    Nat × Nat × Nat :=
  if lessAt less d b a then (b, a, swaps + 1) else (a, b, swaps)

/-- `median_func`: index of the median of three, counting swaps. -/
def medianGo [Inhabited α] (less : α → α → Bool) (d : List α) (a b c swaps : Nat) :
    Nat × Nat :=
  let r1 := order2Go less d a b swaps
  let r2 := order2Go less d r1.2.1 c r1.2.2
  let r3 := order2Go less d r1.1 r2.1 r2.2.2
  (r3.2.1, r3.2.2)

/-- `medianAdjacent_func`: median of an index and its two neighbours. -/
def medianAdjacentGo [Inhabited α] (less : α → α → Bool) (d : List α) (a swaps : Nat) :
    Nat × Nat :=
  medianGo less d (a - 1) a (a + 1) swaps

/-- The `sortedHint` returned by `choosePivot_func`. -/
inductive SortHint where
  | unknown
  | increasing
  | decreasing
  deriving DecidableEq, Inhabited

/-- Hint derived from the swap count (`maxSwaps = 4 * 3`). -/
def hintOfSwaps (swaps : Nat) : SortHint :=
  if swaps = 0 then .increasing else if swaps = 12 then .decreasing else .unknown

/-- `choosePivot_func(data, a, b)`: median (or Tukey ninther for long ranges)
of three positions at the quarters, plus a sortedness hint. -/
def choosePivotGo [Inhabited α] (less : α → α → Bool) (d : List α) (a b : Nat) :
    Nat × SortHint :=
  let l := b - a
  let i := a + l / 4 * 1
  let j := a + l / 4 * 2
  let k := a + l / 4 * 3
  if l ≥ 8 then
    if l ≥ 50 then
      let ri := medianAdjacentGo less d i 0
      let rj := medianAdjacentGo less d j ri.2
      let rk := medianAdjacentGo less d k rj.2
      let rm := medianGo less d ri.1 rj.1 rk.1 rk.2
      (rm.1, hintOfSwaps rm.2)
    else
      let rm := medianGo less d i j k 0
      (rm.1, hintOfSwaps rm.2)
  else (j, hintOfSwaps 0)

/-- Loop of `reverseRange_func`: swap `i` and `j` moving inwards; the fuel
exceeds `j - i` in every call. -/
def reverseRangeLoop [Inhabited α] : Nat → Nat → Nat → List α → List α
  | 0, _, _, d => d
  | fuel + 1, i, j, d =>
    if i < j then reverseRangeLoop fuel (i + 1) (j - 1) (swapIdx d i j) else d

/-- `reverseRange_func(data, a, b)`: reverse the range `[a, b)`. -/
def reverseRangeGo [Inhabited α] (a b : Nat) (d : List α) : List α :=
  reverseRangeLoop (b + 1) a (b - 1) d

/-- Scan of `partialInsertionSort_func`: advance `i` while the element at `i`
is not strictly less than its left neighbour; fuel exceeds `b - i`. -/
def partInsScan [Inhabited α] (less : α → α → Bool) (b : Nat) (d : List α) :
    Nat → Nat → Nat
  | 0, i => i
  | fuel + 1, i =>
    if i < b && !lessAt less d i (i - 1) then partInsScan less b d fuel (i + 1) else i

/-- Left shift of `partialInsertionSort_func`:
`for j := i - 1; j >= 1; j-- { if !Less(j, j-1) break; Swap(j, j-1) }`. -/
def partInsShiftLeft [Inhabited α] (less : α → α → Bool) : List α → Nat → List α
  | d, 0 => d
  | d, j + 1 =>
    if lessAt less d (j + 1) j then partInsShiftLeft less (swapIdx d (j + 1) j) j else d

/-- Right shift of `partialInsertionSort_func`:
`for j := i + 1; j < b; j++ { if !Less(j, j-1) break; Swap(j, j-1) }`;
fuel exceeds `b - j`. -/
def partInsShiftRight [Inhabited α] (less : α → α → Bool) (b : Nat) :
    Nat → List α → Nat → List α
  | 0, d, _ => d
  | fuel + 1, d, j =>
    if j < b then
      if lessAt less d j (j - 1) then partInsShiftRight less b fuel (swapIdx d j (j - 1)) (j + 1)
      else d
    else d

/-- Step loop of `partialInsertionSort_func` (`maxSteps = 5`,
`shortestShifting = 50`): returns the data plus whether the range was found
completely sorted. -/
def partInsSteps [Inhabited α] (less : α → α → Bool) (a b : Nat) :
    Nat → List α → Nat → List α × Bool
  | 0, d, _ => (d, false)
  | steps + 1, d, i0 =>
    let i := partInsScan less b d (b + 1) i0
    if i = b then (d, true)
    else if b - a < 50 then (d, false)
    else
      let d1 := swapIdx d i (i - 1)
      let d2 := if i - a ≥ 2 then partInsShiftLeft less d1 (i - 1) else d1
      let d3 := if b - i ≥ 2 then partInsShiftRight less b (b + 1) d2 (i + 1) else d2
      partInsSteps less a b steps d3 i

/-- `partialInsertionSort_func(data, a, b)`: partially sort by shifting at most
five adjacent out-of-order pairs; reports whether the range ended up sorted. -/
def partInsertionSortGo [Inhabited α] (less : α → α → Bool) (a b : Nat) (d : List α) :
    List α × Bool :=
  partInsSteps less a b 5 d (a + 1)

/-- Scan of `partition_func`: `for i <= j && data.Less(i, a) { i++ }`.
The fuel exceeds `b` in every call, which bounds the scan length. -/
def partScanI [Inhabited α] (less : α → α → Bool) (d : List α) (aIdx j : Nat) :
    Nat → Nat → Nat
  | 0, i => i
  | fuel + 1, i => if i ≤ j && lessAt less d i aIdx then partScanI less d aIdx j fuel (i + 1) else i

/-- Scan of `partition_func`: `for i <= j && !data.Less(j, a) { j-- }`. -/
def partScanJ [Inhabited α] (less : α → α → Bool) (d : List α) (aIdx i : Nat) :
    Nat → Nat → Nat
  | 0, j => j
  | fuel + 1, j => if i ≤ j && !lessAt less d j aIdx then partScanJ less d aIdx i fuel (j - 1) else j

/-- Main loop of `partition_func`: scan from both ends, swap, repeat; returns
the data and the final `j`. -/
def partitionLoop [Inhabited α] (less : α → α → Bool) (aIdx b : Nat) :
    Nat → List α → Nat → Nat → List α × Nat
  | 0, d, _, j => (d, j)
  | fuel + 1, d, i, j =>
    let i1 := partScanI less d aIdx j (b + 1) i
    let j1 := partScanJ less d aIdx i1 (b + 1) j
    if i1 > j1 then (d, j1)
    else partitionLoop less aIdx b fuel (swapIdx d i1 j1) (i1 + 1) (j1 - 1)

/-- `partition_func(data, a, b, pivot)`: move the pivot to `a`, partition
`[a+1, b)` around it, and place the pivot at its final slot. Returns the data,
the pivot's final index and whether the range was already partitioned. -/
def partitionGo [Inhabited α] (less : α → α → Bool) (a b pivot : Nat) (d0 : List α) :
    List α × Nat × Bool :=
  let d1 := swapIdx d0 a pivot
  let i0 := partScanI less d1 a (b - 1) (b + 1) (a + 1)
  let j0 := partScanJ less d1 a i0 (b + 1) (b - 1)
  if i0 > j0 then (swapIdx d1 j0 a, j0, true)
  else
    let d2 := swapIdx d1 i0 j0
    let r := partitionLoop less a b (b + 1) d2 (i0 + 1) (j0 - 1)
    (swapIdx r.1 r.2 a, r.2, false)

/-- Scan of `partitionEqual_func`: `for i <= j && !data.Less(a, i) { i++ }`. -/
def partEqScanI [Inhabited α] (less : α → α → Bool) (d : List α) (aIdx j : Nat) :
    Nat → Nat → Nat
  | 0, i => i
  | fuel + 1, i => if i ≤ j && !lessAt less d aIdx i then partEqScanI less d aIdx j fuel (i + 1) else i

/-- Scan of `partitionEqual_func`: `for i <= j && data.Less(a, j) { j-- }`. -/
def partEqScanJ [Inhabited α] (less : α → α → Bool) (d : List α) (aIdx i : Nat) :
    Nat → Nat → Nat
  | 0, j => j
  | fuel + 1, j => if i ≤ j && lessAt less d aIdx j then partEqScanJ less d aIdx i fuel (j - 1) else j

/-- Main loop of `partitionEqual_func`; returns the data and the final `i`. -/
def partEqLoop [Inhabited α] (less : α → α → Bool) (aIdx b : Nat) :
    Nat → List α → Nat → Nat → List α × Nat
  | 0, d, i, _ => (d, i)
  | fuel + 1, d, i, j =>
    let i1 := partEqScanI less d aIdx j (b + 1) i
    let j1 := partEqScanJ less d aIdx i1 (b + 1) j
    if i1 > j1 then (d, i1)
    else partEqLoop less aIdx b fuel (swapIdx d i1 j1) (i1 + 1) (j1 - 1)

/-- `partitionEqual_func(data, a, b, pivot)`: partition the elements equal to
the pivot to the front; returns the data and the first index past them. -/
def partitionEqualGo [Inhabited α] (less : α → α → Bool) (a b pivot : Nat)
    (d0 : List α) : List α × Nat :=
  partEqLoop less a b (b + 1) (swapIdx d0 a pivot) (a + 1) (b - 1)

/-- `pdqsort_func(data, a, b, limit)`. The two boolean arguments are the
loop-carried `wasBalanced` and `wasPartitioned` flags — they start `true` at
every (recursive) entry and are only updated when the loop continues on a
sub-range. The fuel argument bounds the combined loop-iteration/recursion
depth; every loop iteration strictly shrinks `b - a`, so the fuel supplied by
`sortSliceGo` is never exhausted. -/
def pdqsortGo [Inhabited α] (less : α → α → Bool) :
    Nat → Nat → Nat → Nat → Bool → Bool → List α → List α
  | 0, _, _, _, _, _, d => d
  | fuel + 1, a, b, limit, wasBalanced, wasPartitioned, d =>
    let length := b - a
    if length ≤ 12 then insertionSortGo less a b d
    else if limit = 0 then heapSortGo less a b d
    else
      let st := if wasBalanced then (d, limit) else (breakPatternsGo a b d, limit - 1)
      let d1 := st.1
      let limit1 := st.2
      let pv := choosePivotGo less d1 a b
      let st2 :=
        if pv.2 = SortHint.decreasing then
          (reverseRangeGo a b d1, b - 1 - (pv.1 - a), SortHint.increasing)
        else (d1, pv.1, pv.2)
      let d2 := st2.1
      let pivot := st2.2.1
      let hint := st2.2.2
      let rest := fun (d3 : List α) =>
        if a > 0 && !lessAt less d3 (a - 1) pivot then
          let pe := partitionEqualGo less a b pivot d3
          pdqsortGo less fuel pe.2 b limit1 wasBalanced wasPartitioned pe.1
        else
          let pr := partitionGo less a b pivot d3
          let d4 := pr.1
          let mid := pr.2.1
          let wasP := pr.2.2
          let leftLen := mid - a
          let rightLen := b - mid
          let balanceThreshold := length / 8
          let wasB := decide (min leftLen rightLen ≥ balanceThreshold)
          if leftLen < rightLen then
            pdqsortGo less fuel (mid + 1) b limit1 wasB wasP
              (pdqsortGo less fuel a mid limit1 true true d4)
          else
            pdqsortGo less fuel a mid limit1 wasB wasP
              (pdqsortGo less fuel (mid + 1) b limit1 true true d4)
      if wasBalanced && wasPartitioned && hint = SortHint.increasing then
        let pis := partInsertionSortGo less a b d2
        if pis.2 then pis.1 else rest pis.1
      else rest d2

/-- `sort.Slice(x, less)`: `limit := bits.Len(uint(length))`, then
`pdqsort_func(lessSwap, 0, length, limit)`. -/
def sortSliceGo [Inhabited α] (less : α → α → Bool) (l : List α) : List α :=
  pdqsortGo less (2 * l.length + bitsLen l.length + 2) 0 l.length (bitsLen l.length)
    true true l

/-- The timing pipeline of `Measure` with `sort.Slice` transcribed exactly
(pdqsort) instead of the stable model: collect, `sort.Slice` by the
microsecond comparator, truncate, normalize. -/
def measureGoTimings (events : List Event) (find : Event → List Occurrence × Option String) :
    List Timing :=
  normalizeT (truncAtLastTerminal (sortSliceGo timingLess (collectTimings events find)))

/-! ### Derived notions used in the statements -/

/-- The chronological order of a measurement: non-decreasing timestamps at
microsecond resolution (the resolution `sort.Slice` compares at). -/
def leMicro (a b : Timing) : Prop := unixMicro a.timestamp ≤ unixMicro b.timestamp

instance : DecidableRel leMicro := fun a b =>
  inferInstanceAs (Decidable (unixMicro a.timestamp ≤ unixMicro b.timestamp))

/-- Projection of a timing to everything except the normalized `T` (which the
normalization step rewrites): event, timestamp, comment, error. -/
def projT (t : Timing) : Event × Int × String × Option String :=
  (t.event, t.timestamp, t.comment, t.error)

/-! ### Concrete fixtures for witnesses and counterexamples -/

/-- A single registered source used by the fixtures. -/
def fixSource : Source := ⟨"src"⟩

/-- An event bound to the fixture source. -/
def mkEvent (nm metric : String) (term : Bool) : Event :=
  { name := nm, metric := metric, srcName := "src", src := some fixSource, terminal := term }

/-- An occurrence with an empty comment. -/
def mkOcc (ts : Int) : Occurrence := ⟨ts, ""⟩

/-- A find behaviour given by a per-event-name table (missing names produce
nothing and no error). -/
def tableFind (table : List (String × (List Occurrence × Option String))) :
    Event → List Occurrence × Option String :=
  fun e => ((table.find? fun p => p.1 = e.name).map Prod.snd).getD ([], none)

/-- A measurer with the fixture source registered, the given events, an empty
metadata cell and no IMDS client. -/
def mkMeasurer (events : List Event) : Measurer :=
  { sources := [("src", fixSource)], events := events, metadata := none, imdsClient := none }

/-- C1 witness input, terminal case: a terminal event between two others. -/
def c1wMeasurer : Measurer :=
  mkMeasurer [mkEvent "a" "a" false, mkEvent "b" "b" true, mkEvent "c" "c" false]

/-- C1 witness find: one occurrence per event, the terminal one in the middle
of the timeline. -/
def c1wFind : Event → List Occurrence × Option String :=
  tableFind [("a", ([mkOcc 1000], none)), ("b", ([mkOcc 2000], none)), ("c", ([mkOcc 3000], none))]

/-- The timing `Measure` leaves last on the C1 witness input. -/
def c1wLast : Timing :=
  { event := mkEvent "b" "b" true, timestamp := 2000, t := 1000, comment := "", error := none }

/-- C1 witness input, no-terminal case. -/
def c1nMeasurer : Measurer := mkMeasurer [mkEvent "a" "a" false, mkEvent "c" "c" false]

/-- C1 witness find for the no-terminal case. -/
def c1nFind : Event → List Occurrence × Option String :=
  tableFind [("a", ([mkOcc 1000], none)), ("c", ([mkOcc 3000], none))]

/-- C2 counterexample input: two timings in the same microsecond whose
nanosecond timestamps run against production order. -/
def c2cMeasurer : Measurer := mkMeasurer [mkEvent "p" "p" false, mkEvent "q" "q" false]

/-- C2 counterexample find: 1500ns then 1200ns, both in microsecond 1. -/
def c2cFind : Event → List Occurrence × Option String :=
  tableFind [("p", ([mkOcc 1500], none)), ("q", ([mkOcc 1200], none))]

/-- C2 witness input: whole-microsecond timestamps. -/
def c2wMeasurer : Measurer := mkMeasurer [mkEvent "r" "r" false, mkEvent "s" "s" false]

/-- C2 witness find. -/
def c2wFind : Event → List Occurrence × Option String :=
  tableFind [("r", ([mkOcc 2000], none)), ("s", ([mkOcc 1000], none))]

/-- The first timing of the C2 witness measurement. -/
def c2wHead : Timing :=
  { event := mkEvent "s" "s" false, timestamp := 1000, t := 0, comment := "", error := none }

/-- C3 counterexample: thirteen events (so `sort.Slice` leaves its
insertion-sort path) with one occurrence each; three of them — `e1`, `e4`,
`e6`, registered in that order — fall into the same microsecond. -/
def c3Table : List (String × Int) :=
  [("e0", 6000), ("e1", 5100), ("e2", 9000), ("e3", 4000), ("e4", 5200), ("e5", 8000),
    ("e6", 5300), ("e7", 7000), ("e8", 3000), ("e9", 6400), ("e10", 2000), ("e11", 1000),
    ("e12", 0)]

/-- The thirteen C3 events, none terminal, in registration order. -/
def c3Events : List Event := c3Table.map fun p => mkEvent p.1 p.1 false

/-- The C3 find behaviour: each event yields its tabled timestamp. -/
def c3Find : Event → List Occurrence × Option String :=
  tableFind (c3Table.map fun p => (p.1, ([mkOcc p.2], none)))

/-- C5 fixtures: a terminal event that never occurs, so the driver never
completes and only the timeout stops it. -/
def c5Measurer : Measurer := mkMeasurer [mkEvent "a" "a" true]

/-- C5 find sequence: no pass ever finds anything. -/
def c5FindSeq : Nat → Event → List Occurrence × Option String := fun _ => tableFind []

/-- C6 fixtures: a single event whose source errors with zero occurrences. -/
def c6Event : Event := mkEvent "x" "x" false

/-- The C6 measurer. -/
def c6Measurer : Measurer := mkMeasurer [c6Event]

/-- The C6 find behaviour: zero occurrences together with an error. -/
def c6Find : Event → List Occurrence × Option String := fun _ => ([], some "boom")

/-- C6 witness fixture: an event whose source produces one occurrence together
with an error. -/
def c6wEvent : Event := mkEvent "w" "w" false

/-- The C6 witness measurer. -/
def c6wMeasurer : Measurer := mkMeasurer [c6wEvent]

/-- The C6 witness find behaviour: an occurrence plus an error for `w`,
nothing for anything else. -/
def c6wFind : Event → List Occurrence × Option String :=
  tableFind [("w", ([mkOcc 100], some "err"))]

/-- The timing the C6 witness measurement contains. -/
def c6wTiming : Timing :=
  { event := c6wEvent, timestamp := 100, t := 0, comment := "", error := some "err" }

/-- C7 fixtures: the identity document a healthy IMDS client returns. -/
def c7Doc : IdDoc :=
  { region := "us-east-1", instanceType := "m5.large", instanceID := "i-1", accountID := "a",
    architecture := "x86_64", availabilityZone := "us-east-1a", imageID := "ami-1",
    privateIP := "10.0.0.1" }

/-- The metadata `getMetadata` builds from `c7Doc`. -/
def c7Metadata : Metadata :=
  { region := "us-east-1", instanceType := "m5.large", instanceID := "i-1", accountID := "a",
    architecture := "x86_64", availabilityZone := "us-east-1a", privateIP := "10.0.0.1",
    amiID := "ami-1" }

/-- A measurer with an empty metadata cell and a succeeding IMDS client. -/
def c7Measurer : Measurer :=
  { sources := [], events := [], metadata := none, imdsClient := some (.ok c7Doc) }

/-- A measurer whose IMDS client fails. -/
def c7FailMeasurer : Measurer :=
  { sources := [], events := [], metadata := none, imdsClient := some (.error "nope") }

/-- The C7 find behaviour (no events are registered anyway). -/
def c7Find : Event → List Occurrence × Option String := fun _ => ([], none)

/-- C9 fixtures: three timings sharing the metric identifier `m` with
distinct timestamps and values. -/
def c9Timing (v : Int) : Timing :=
  { event := mkEvent "ev" "m" false, timestamp := v, t := v, comment := "", error := none }

/-- The C9 measurement: an all-matches event that matched three lines. -/
def c9Meas : Measurement := ⟨none, [c9Timing 10, c9Timing 20, c9Timing 30]⟩

/-- The single gauge sample left by `RegisterMetrics` on the C9 fixture. -/
def c9Sample : PromSample := ⟨"m", [("experiment", "e9")], 30⟩

/-- C10 fixtures: two terminal events; `A` matches all of two occurrences,
`B` never occurs. -/
def c10EventA : Event := mkEvent "A" "a" true

/-- The terminal event that never produces a timing. -/
def c10EventB : Event := mkEvent "B" "b" true

/-- The C10 measurer registering both terminal events. -/
def c10Measurer : Measurer := mkMeasurer [c10EventA, c10EventB]

/-- The C10 find sequence: every pass sees two occurrences of `A` and none of
`B`. -/
def c10FindSeq : Nat → Event → List Occurrence × Option String :=
  fun _ => tableFind [("A", ([mkOcc 1000, mkOcc 2000], none))]

/-- The measurement the C10 driver returns. -/
def c10Meas : Measurement :=
  ⟨none,
    [{ event := c10EventA, timestamp := 1000, t := 0, comment := "", error := none },
     { event := c10EventA, timestamp := 2000, t := 1000, comment := "", error := none }]⟩

/-! ## Supporting lemmas about the `Measure` pipeline -/

theorem insertRight_perm (x : Timing) : ∀ l : List Timing, List.Perm (insertRight l x) (x :: l) := by
  intro l
  induction l with
  | nil => simp [insertRight]
  | cons y ys ih =>
    simp only [insertRight]
    split
    · exact List.Perm.refl _
    · exact ((ih.cons y).trans (List.Perm.swap x y ys))

theorem foldl_insertRight_perm : ∀ (l acc : List Timing), List.Perm (List.foldl insertRight acc l) (acc ++ l) := by
  intro l
  induction l with
  | nil => intro acc; simp
  | cons x xs ih =>
    intro acc
    have h1 : List.foldl insertRight acc (x :: xs) = List.foldl insertRight (insertRight acc x) xs := rfl
    rw [h1]
    exact ((ih _).trans ((insertRight_perm x acc).append_right xs)).trans List.perm_middle.symm

theorem sortTimings_perm (l : List Timing) : List.Perm (sortTimings l) l := by
  simpa [sortTimings] using foldl_insertRight_perm l []

theorem mem_insertRight {z x : Timing} {l : List Timing} :
    z ∈ insertRight l x ↔ z = x ∨ z ∈ l := by
  rw [(insertRight_perm x l).mem_iff, List.mem_cons]

theorem insertRight_pairwise {l : List Timing} (h : l.Pairwise leMicro) (x : Timing) :
    (insertRight l x).Pairwise leMicro := by
  induction l with
  | nil => simp [insertRight]
  | cons y ys ih =>
    rw [List.pairwise_cons] at h
    obtain ⟨hy, hys⟩ := h
    simp only [insertRight]
    split
    · rename_i hlt
      have hxy : leMicro x y := le_of_lt (by simpa [timingLess, unixMicro] using hlt)
      refine List.Pairwise.cons ?_ (List.Pairwise.cons hy hys)
      intro z hz
      rcases List.mem_cons.mp hz with rfl | hz
      · exact hxy
      · exact le_trans hxy (hy z hz)
    · rename_i hnlt
      have hyx : leMicro y x := by
        simp only [timingLess, decide_eq_true_eq, not_lt] at hnlt
        simpa [leMicro] using hnlt
      refine List.Pairwise.cons ?_ (ih hys)
      intro z hz
      rcases mem_insertRight.mp hz with rfl | hz
      · exact hyx
      · exact hy z hz

theorem foldl_insertRight_pairwise :
    ∀ (l acc : List Timing), acc.Pairwise leMicro →
      (List.foldl insertRight acc l).Pairwise leMicro := by
  intro l
  induction l with
  | nil => intro acc h; exact h
  | cons x xs ih => intro acc h; exact ih _ (insertRight_pairwise h x)

theorem sortTimings_pairwise (l : List Timing) : (sortTimings l).Pairwise leMicro :=
  foldl_insertRight_pairwise l [] (List.Pairwise.nil)

theorem normalizeT_eq (l : List Timing) :
    ∃ c : Int, normalizeT l = l.map fun t => { t with t := t.timestamp - c } := by
  cases l with
  | nil => exact ⟨0, rfl⟩
  | cons x xs => exact ⟨x.timestamp, rfl⟩

theorem truncAtLastTerminal_sublist (l : List Timing) : List.Sublist (truncAtLastTerminal l) l := by
  unfold truncAtLastTerminal
  split
  · exact List.take_sublist _ _
  · exact List.Sublist.refl _

theorem findLastIdxAux_eq_none {p : α → Bool} :
    ∀ {l : List α} {i : Nat}, findLastIdxAux p l i = none → ∀ x ∈ l, p x = false := by
  intro l
  induction l with
  | nil => intro i _ x hx; cases hx
  | cons y ys ih =>
    intro i h x hx
    simp only [findLastIdxAux] at h
    cases hrec : findLastIdxAux p ys (i + 1) with
    | some j => rw [hrec] at h; cases h
    | none =>
      rw [hrec] at h
      rcases List.mem_cons.mp hx with rfl | hx
      · by_contra hpx
        simp only [Bool.not_eq_false] at hpx
        simp [hpx] at h
      · exact ih hrec x hx

theorem findLastIdxAux_of_all_false {p : α → Bool} :
    ∀ {l : List α} (i : Nat), (∀ x ∈ l, p x = false) → findLastIdxAux p l i = none := by
  intro l
  induction l with
  | nil => intro i _; rfl
  | cons y ys ih =>
    intro i h
    simp only [findLastIdxAux]
    rw [ih (i + 1) fun x hx => h x (List.mem_cons_of_mem y hx)]
    simp [h y (List.mem_cons_self y ys)]

theorem findLastIdxAux_eq_some {p : α → Bool} :
    ∀ {l : List α} {i j : Nat}, findLastIdxAux p l i = some j →
      i ≤ j ∧ j - i < l.length ∧ ∃ x, l[j - i]? = some x ∧ p x = true := by
  intro l
  induction l with
  | nil => intro i j h; cases h
  | cons y ys ih =>
    intro i j h
    simp only [findLastIdxAux] at h
    cases hrec : findLastIdxAux p ys (i + 1) with
    | some j' =>
      rw [hrec] at h
      cases h
      obtain ⟨h1, h2, x, hx, hpx⟩ := ih hrec
      refine ⟨by omega, by simp; omega, x, ?_, hpx⟩
      have : j - i = (j - (i + 1)) + 1 := by omega
      rw [this, List.getElem?_cons_succ]
      exact hx
    | none =>
      rw [hrec] at h
      by_cases hpy : p y
      · simp only [hpy, if_true] at h
        cases h
        exact ⟨le_refl _, by simp, y, by simp, hpy⟩
      · simp [hpy] at h

theorem getLast?_take_succ : ∀ (i : Nat) (l : List α), i < l.length →
    (l.take (i + 1)).getLast? = l[i]? := by
  intro i
  induction i with
  | zero =>
    intro l hl
    cases l with
    | nil => cases hl
    | cons x xs => simp
  | succ n ih =>
    intro l hl
    cases l with
    | nil => cases hl
    | cons x xs =>
      have hlen : n < xs.length := by simpa using hl
      have hrec := ih xs hlen
      simp only [List.take_succ_cons, List.getElem?_cons_succ]
      rw [← hrec]
      have hne : xs.take (n + 1) ≠ [] := by
        apply List.ne_nil_of_length_pos
        simp
        omega
      cases hx : xs.take (n + 1) with
      | nil => exact absurd hx hne
      | cons z zs => simp [List.getLast?_cons_cons]

theorem map_getLast? (f : α → β) : ∀ l : List α, (l.map f).getLast? = l.getLast?.map f := by
  intro l
  induction l with
  | nil => rfl
  | cons x xs ih =>
    cases xs with
    | nil => rfl
    | cons y ys => simpa [List.getLast?_cons_cons] using ih

theorem mem_collectTimings {events : List Event} {find : Event → List Occurrence × Option String}
    {t : Timing} (h : t ∈ collectTimings events find) :
    t.event ∈ events ∧ t.error = (find t.event).2 ∧
      ∃ r ∈ (find t.event).1, t.timestamp = r.timestamp := by
  simp only [collectTimings, List.mem_flatMap, List.mem_map] at h
  obtain ⟨e, he, r, hr, rfl⟩ := h
  exact ⟨he, rfl, r, hr, rfl⟩

theorem mem_measureTimings {events : List Event} {find : Event → List Occurrence × Option String}
    {y : Timing} (h : y ∈ measureTimings events find) :
    ∃ z ∈ collectTimings events find,
      y.event = z.event ∧ y.timestamp = z.timestamp ∧ y.error = z.error := by
  unfold measureTimings at h
  obtain ⟨c, hc⟩ := normalizeT_eq (truncAtLastTerminal (sortTimings (collectTimings events find)))
  rw [hc] at h
  simp only [List.mem_map] at h
  obtain ⟨z, hz, rfl⟩ := h
  have hz' : z ∈ sortTimings (collectTimings events find) :=
    (truncAtLastTerminal_sublist _).subset hz
  exact ⟨z, (sortTimings_perm _).subset hz', rfl, rfl, rfl⟩

theorem measure_timings_eq (m : Measurer) (find : Event → List Occurrence × Option String) :
    (m.measure find).timings = measureTimings m.events find := rfl

theorem trunc_getLast_terminal {l : List Timing} (hx : ∃ x ∈ l, x.event.terminal = true) :
    ∀ z, (truncAtLastTerminal l).getLast? = some z → z.event.terminal = true := by
  intro z hz
  unfold truncAtLastTerminal findLastIdx at hz
  split at hz
  · rename_i i hfl
    obtain ⟨_, hlen, x, hgx, hpx⟩ := findLastIdxAux_eq_some hfl
    simp only [Nat.sub_zero] at hlen hgx
    rw [getLast?_take_succ i l hlen] at hz
    have hzx : z = x := by
      have := hz.symm.trans hgx
      exact (Option.some.inj this)
    rw [hzx]
    exact hpx
  · rename_i hfl
    obtain ⟨x, hxl, hxt⟩ := hx
    have := findLastIdxAux_eq_none hfl x hxl
    rw [hxt] at this
    cases this

theorem le_of_microLe_of_dvd {x y : Int} (h : unixMicro x ≤ unixMicro y)
    (hx : (1000 : Int) ∣ x) (hy : (1000 : Int) ∣ y) : x ≤ y := by
  obtain ⟨kx, rfl⟩ := hx
  obtain ⟨ky, rfl⟩ := hy
  rw [unixMicro, unixMicro, Int.mul_fdiv_cancel_left _ (by norm_num),
    Int.mul_fdiv_cancel_left _ (by norm_num)] at h
  exact mul_le_mul_of_nonneg_left h (by norm_num)

theorem measureTimings_pairwise (events : List Event)
    (find : Event → List Occurrence × Option String) :
    (measureTimings events find).Pairwise leMicro := by
  have hLp : (truncAtLastTerminal (sortTimings (collectTimings events find))).Pairwise leMicro :=
    List.Pairwise.sublist (truncAtLastTerminal_sublist _) (sortTimings_pairwise _)
  unfold measureTimings
  obtain ⟨c, hc⟩ := normalizeT_eq (truncAtLastTerminal (sortTimings (collectTimings events find)))
  rw [hc, List.pairwise_map]
  exact hLp

/-! ## The claims -/

/-- C1: for every measurement produced by `Measure` that contains a timing
with a terminal event, no timing follows the last terminal timing — the last
timing of the measurement is terminal; and when no collected timing is
terminal, the full sorted sequence is kept (same timings, in the sorted
order, up to the `T` normalization). -/
theorem C1_truncation_law (m : Measurer) (find : Event → List Occurrence × Option String) :
    ((∃ x ∈ (m.measure find).timings, x.event.terminal = true) →
      ∀ z, ((m.measure find).timings).getLast? = some z → z.event.terminal = true) ∧
    ((∀ x ∈ collectTimings m.events find, x.event.terminal = false) →
      ((m.measure find).timings).map projT =
        (sortTimings (collectTimings m.events find)).map projT) := by
  rw [measure_timings_eq]
  constructor
  · intro hex z hz
    unfold measureTimings at hz
    obtain ⟨c, hc⟩ :=
      normalizeT_eq (truncAtLastTerminal (sortTimings (collectTimings m.events find)))
    rw [hc, map_getLast?] at hz
    cases hl : (truncAtLastTerminal (sortTimings (collectTimings m.events find))).getLast? with
    | none => rw [hl] at hz; cases hz
    | some z0 =>
      rw [hl] at hz
      have hz0 : z = { z0 with t := z0.timestamp - c } := (Option.some.inj hz).symm
      have hex' : ∃ x ∈ sortTimings (collectTimings m.events find), x.event.terminal = true := by
        obtain ⟨x, hx, hxt⟩ := hex
        obtain ⟨z1, hz1, he, _, _⟩ := mem_measureTimings hx
        exact ⟨z1, (sortTimings_perm _).mem_iff.mpr hz1, by rw [← he]; exact hxt⟩
      have := trunc_getLast_terminal hex' z0 hl
      rw [hz0]
      exact this
  · intro hall
    unfold measureTimings
    have hnone :
        findLastIdxAux (fun t => t.event.terminal)
          (sortTimings (collectTimings m.events find)) 0 = none :=
      findLastIdxAux_of_all_false 0 fun x hx => hall x ((sortTimings_perm _).subset hx)
    rw [truncAtLastTerminal, findLastIdx, hnone]
    obtain ⟨c, hc⟩ := normalizeT_eq (sortTimings (collectTimings m.events find))
    rw [hc, List.map_map]
    rfl

/-- C1 witness: on a run with a terminal event in the middle of the timeline
the last kept timing is terminal, and on a run with no terminal event the full
sorted sequence is kept. -/
theorem C1_truncation_law_witness :
    c1wLast.event.terminal = true ∧
    ((c1nMeasurer.measure c1nFind).timings).map projT =
      (sortTimings (collectTimings c1nMeasurer.events c1nFind)).map projT :=
  ⟨(C1_truncation_law c1wMeasurer c1wFind).1 (by decide) c1wLast (by decide),
   (C1_truncation_law c1nMeasurer c1nFind).2 (by decide)⟩

/-- C2 (amended): in every measurement produced by `Measure`, the first
timing's `T` is zero and the timestamps are non-decreasing at microsecond
resolution; `T` itself is non-decreasing whenever the timestamps are whole
microseconds (`sort.Slice` compares microseconds while `T` keeps full
precision, so sub-microsecond ties can make `T` decrease — see the
counterexample). -/
theorem C2_normalization_law (m : Measurer) (find : Event → List Occurrence × Option String) :
    (∀ z, ((m.measure find).timings).head? = some z → z.t = 0) ∧
    ((m.measure find).timings).Pairwise leMicro ∧
    ((∀ x ∈ (m.measure find).timings, (1000 : Int) ∣ x.timestamp) →
      ((m.measure find).timings).Pairwise fun a b => a.t ≤ b.t) := by
  rw [measure_timings_eq]
  have hmt : measureTimings m.events find =
      normalizeT (truncAtLastTerminal (sortTimings (collectTimings m.events find))) := rfl
  have hLp : (truncAtLastTerminal (sortTimings (collectTimings m.events find))).Pairwise leMicro :=
    List.Pairwise.sublist (truncAtLastTerminal_sublist _) (sortTimings_pairwise _)
  refine ⟨?_, ?_, ?_⟩
  · intro z hz
    rw [hmt] at hz
    cases hLl : truncAtLastTerminal (sortTimings (collectTimings m.events find)) with
    | nil => rw [hLl] at hz; cases hz
    | cons x xs =>
      rw [hLl] at hz
      have : z = { x with t := x.timestamp - x.timestamp } := by
        simp only [normalizeT, List.map_cons, List.head?_cons] at hz
        exact (Option.some.inj hz).symm
      rw [this]
      simp
  · exact measureTimings_pairwise m.events find
  · intro hdiv
    rw [hmt]
    obtain ⟨c, hc⟩ := normalizeT_eq (truncAtLastTerminal (sortTimings (collectTimings m.events find)))
    rw [hc, List.pairwise_map]
    have hdiv' : ∀ x ∈ truncAtLastTerminal (sortTimings (collectTimings m.events find)),
        (1000 : Int) ∣ x.timestamp := by
      intro x hx
      have hmem : { x with t := x.timestamp - c } ∈ (m.measure find).timings := by
        rw [measure_timings_eq, hmt, hc]
        exact List.mem_map_of_mem _ hx
      simpa using hdiv _ hmem
    refine List.Pairwise.imp_of_mem ?_ hLp
    intro a b ha hb hr
    exact sub_le_sub_right (le_of_microLe_of_dvd hr (hdiv' a ha) (hdiv' b hb)) c

/-- C2 counterexample: two occurrences land in the same microsecond with
nanosecond parts running against production order (1500ns then 1200ns); the
measurement's `T` sequence is `[0, -300]`, which is not monotonically
non-decreasing, so the claim as stated fails. -/
theorem C2_counterexample :
    ((c2cMeasurer.measure c2cFind).timings.map fun t => t.t) = [0, -300] ∧
    ¬ ((c2cMeasurer.measure c2cFind).timings.Pairwise fun a b => a.t ≤ b.t) := by
  constructor
  · decide
  · decide

/-- C2 witness: on whole-microsecond timestamps the first `T` is zero and `T`
is non-decreasing. -/
theorem C2_normalization_law_witness :
    c2wHead.t = 0 ∧
    ((c2wMeasurer.measure c2wFind).timings.Pairwise fun a b => a.t ≤ b.t) :=
  ⟨(C2_normalization_law c2wMeasurer c2wFind).1 c2wHead (by decide),
   (C2_normalization_law c2wMeasurer c2wFind).2.2 (by decide)⟩

theorem c3_collect_eval :
    ((collectTimings c3Events c3Find).map fun t => t.timestamp) =
      [6000, 5100, 9000, 4000, 5200, 8000, 5300, 7000, 3000, 6400, 2000, 1000, 0] := by
  decide

theorem c3_go_eval :
    ((measureGoTimings c3Events c3Find).map fun t => t.timestamp) =
      [0, 1000, 2000, 3000, 4000, 5300, 5200, 5100, 6000, 6400, 7000, 8000, 9000] := by
  simp only [measureGoTimings, sortSliceGo, pdqsortGo, insertionSortGo, insertionSortGoAux,
    insertionBubble, heapSortGo, heapSortBuild, heapSortPop, siftDownGo, breakPatternsGo,
    breakPatternsLoop, xorshiftNext, nextPowerOfTwo, partitionGo, partScanI, partScanJ,
    partitionLoop, partitionEqualGo, partEqScanI, partEqScanJ, partEqLoop, choosePivotGo,
    medianGo, medianAdjacentGo, order2Go, hintOfSwaps, reverseRangeGo, reverseRangeLoop,
    partInsertionSortGo, partInsSteps, partInsScan, partInsShiftLeft, partInsShiftRight,
    lessAt, timingLess, unixMicro, getIdx, setIdx, swapIdx, bitsLen, bitsLenAux,
    collectTimings, c3Events, c3Find, c3Table, tableFind, mkEvent, mkOcc, fixSource,
    normalizeT, truncAtLastTerminal, findLastIdx, findLastIdxAux, List.find?, List.map,
    List.flatMap, List.length]

/-- C3 (amended): in every measurement produced by `Measure` the timings are
sorted ascending by timestamp at microsecond resolution, but the sort —
`sort.Slice`, Go's pdqsort — is not stable: timings with equal microsecond
timestamps may appear out of their production order once more than 12 timings
are collected (see the counterexample); the conjunct on the transcribed
`sort.Slice` pipeline shows the microsecond ordering still holds on the
counterexample input. -/
theorem C3_sort_order (m : Measurer) (find : Event → List Occurrence × Option String) :
    ((m.measure find).timings).Pairwise leMicro ∧
    (measureGoTimings c3Events c3Find).Pairwise leMicro := by
  refine ⟨measureTimings_pairwise m.events find, ?_⟩
  have h2 : List.Pairwise (fun x y : Int => unixMicro x ≤ unixMicro y)
      ((measureGoTimings c3Events c3Find).map fun t => t.timestamp) := by
    rw [c3_go_eval]; decide
  have h3 := List.pairwise_map.mp h2
  exact h3

/-- C3 counterexample: with thirteen collected timings (so `sort.Slice` takes
its partitioning path, not insertion sort), the timings of `e1` (5100ns) and
`e6` (5300ns) share microsecond 5; production order has 5100 before 5300, yet
the measurement produced with the transcribed `sort.Slice` orders 5300 before
5100 — ties do not retain production order, refuting the stability clause. -/
theorem C3_counterexample :
    ((collectTimings c3Events c3Find).map fun t => t.timestamp) =
      [6000, 5100, 9000, 4000, 5200, 8000, 5300, 7000, 3000, 6400, 2000, 1000, 0] ∧
    ((measureGoTimings c3Events c3Find).map fun t => t.timestamp) =
      [0, 1000, 2000, 3000, 4000, 5300, 5200, 5100, 6000, 6400, 7000, 8000, 9000] ∧
    unixMicro 5100 = unixMicro 5300 ∧
    List.indexOf 5100 ((collectTimings c3Events c3Find).map fun t => t.timestamp) <
      List.indexOf 5300 ((collectTimings c3Events c3Find).map fun t => t.timestamp) ∧
    List.indexOf 5300 ((measureGoTimings c3Events c3Find).map fun t => t.timestamp) <
      List.indexOf 5100 ((measureGoTimings c3Events c3Find).map fun t => t.timestamp) :=
  ⟨c3_collect_eval, c3_go_eval, by decide,
   by rw [c3_collect_eval]; decide,
   by rw [c3_go_eval]; decide⟩

/-- C4: the completion decision at the bottom of each `MeasureUntil` pass —
the `if terminalEvents > 0 && terminalEvents == measuredTerminalEvents` /
`else if terminalEvents == 0 && measuredEvents >= len(m.events)` chain — is
exactly the spec's policy: with registered terminal events, done iff the
error-free terminal timing count equals the registered terminal count;
with none, done iff the error-free timing count reaches the number of
registered events. -/
theorem C4_done_policy (events : List Event) (meas : Measurement) :
    untilDone events meas = untilDoneSpec events meas := by
  simp only [untilDone, untilDoneSpec]
  set tc := List.countP (fun e => e.terminal) events with htc
  set me := List.countP (fun t => t.error.isNone) meas.timings with hme
  set mtc := List.countP (fun t => t.event.terminal && t.error.isNone) meas.timings with hmtc
  by_cases h1 : 0 < tc
  · by_cases h2 : tc = mtc
    · rw [if_pos ⟨h1, h2⟩, if_pos h1]
      simp [h2]
    · rw [if_neg fun hc => h2 hc.2, if_neg fun hc => absurd hc.1 (by omega), if_pos h1]
      exact (decide_eq_false (Ne.symm h2)).symm
  · have h0 : tc = 0 := by omega
    by_cases h3 : events.length ≤ me
    · rw [if_neg fun hc => h1 hc.1, if_pos ⟨h0, h3⟩, if_neg h1]
      exact (decide_eq_true h3).symm
    · rw [if_neg fun hc => h1 hc.1, if_neg fun hc => h3 hc.2, if_neg h1]
      exact (decide_eq_false h3).symm

/-- C5 helper: the retry loop either hands back its incoming measurement or
the measurement of one of the passes it ran. -/
theorem measureUntilAux_result (m : Measurer)
    (findSeq : Nat → Event → List Occurrence × Option String) (timeout retryDelay : Int) :
    ∀ (fuel : Nat) (elapsed : Int) (k : Nat) (cur : Option Measurement),
      measureUntilAux m findSeq timeout retryDelay fuel elapsed k cur = cur ∨
      ∃ j, measureUntilAux m findSeq timeout retryDelay fuel elapsed k cur =
        some (m.measure (findSeq j)) := by
  intro fuel
  induction fuel with
  | zero => intro elapsed k cur; exact Or.inl rfl
  | succ n ih =>
    intro elapsed k cur
    simp only [measureUntilAux]
    by_cases h : elapsed < timeout
    · rw [if_pos h]
      by_cases hd : untilDone m.events (m.measure (findSeq k))
      · rw [if_pos hd]
        exact Or.inr ⟨k, rfl⟩
      · rw [if_neg hd]
        rcases ih (elapsed + retryDelay) (k + 1) (some (m.measure (findSeq k))) with h1 | h1
        · exact Or.inr ⟨k, h1⟩
        · exact Or.inr h1
    · rw [if_neg h]
      exact Or.inl rfl

/-- C5 (amended): the driver never signals an error (its only result is a
measurement value); with a positive timeout at least one pass runs and it
returns the measurement of one of its passes (the most recent), but with a
non-positive timeout the loop body never runs and the nil measurement is
returned (see the counterexample). A positive retry delay keeps the modelled
clock (which advances by `retryDelay` per sleep) faithful to the loop. -/
theorem C5_driver (m : Measurer) (findSeq : Nat → Event → List Occurrence × Option String)
    (timeout retryDelay : Int) (_hrd : 0 < retryDelay) :
    (timeout ≤ 0 → measureUntilGo m findSeq timeout retryDelay = none) ∧
    (0 < timeout →
      ∃ j, measureUntilGo m findSeq timeout retryDelay = some (m.measure (findSeq j))) := by
  constructor
  · intro hto
    unfold measureUntilGo
    simp only [measureUntilAux]
    rw [if_neg (not_lt.mpr hto)]
  · intro hto
    unfold measureUntilGo
    simp only [measureUntilAux]
    rw [if_pos hto]
    by_cases hd : untilDone m.events (m.measure (findSeq 0))
    · rw [if_pos hd]
      exact ⟨0, rfl⟩
    · rw [if_neg hd]
      rcases measureUntilAux_result m findSeq timeout retryDelay timeout.toNat
        (0 + retryDelay) 1 (some (m.measure (findSeq 0))) with h1 | h1
      · exact ⟨0, h1⟩
      · exact h1

/-- C5 counterexample: with timeout `0` (already exhausted) the loop body
never runs, the loop variable is still the nil `*Measurement`, and
`MeasureUntil` returns nil — not a measurement from a pass. -/
theorem C5_counterexample : measureUntilGo c5Measurer c5FindSeq 0 1 = none := by
  decide

/-- C5 witness: a negative timeout returns the nil measurement; a positive
timeout returns some pass's measurement. -/
theorem C5_driver_witness :
    measureUntilGo c5Measurer c5FindSeq (-5) 1 = none ∧
    ∃ j, measureUntilGo c5Measurer c5FindSeq 3 1 = some (c5Measurer.measure (c5FindSeq j)) :=
  ⟨(C5_driver c5Measurer c5FindSeq (-5) 1 (by norm_num)).1 (by norm_num),
   (C5_driver c5Measurer c5FindSeq 3 1 (by norm_num)).2 (by norm_num)⟩

/-- C6 (amended): during a `Measure` pass the per-event error returned by a
source's find is attached to every timing produced for that event; but when
find returns zero occurrences, no timing at all is produced for that event —
also when the error is non-nil, so such a failure is not observable in the
measurement (the claimed placeholder does not exist; see the
counterexample). -/
theorem C6_find_errors (m : Measurer) (find : Event → List Occurrence × Option String) :
    (∀ t ∈ (m.measure find).timings, t.error = (find t.event).2) ∧
    (∀ e : Event, (find e).1 = [] → ∀ t ∈ (m.measure find).timings, t.event ≠ e) := by
  constructor
  · intro t ht
    rw [measure_timings_eq] at ht
    obtain ⟨z, hz, he, _, herr⟩ := mem_measureTimings ht
    obtain ⟨_, herr2, _⟩ := mem_collectTimings hz
    rw [herr, herr2, ← he]
  · intro e hfe t ht heq
    rw [measure_timings_eq] at ht
    obtain ⟨z, hz, he, _, _⟩ := mem_measureTimings ht
    obtain ⟨_, _, r, hr, _⟩ := mem_collectTimings hz
    have hze : z.event = e := by rw [← he, heq]
    rw [hze, hfe] at hr
    cases hr

/-- C6 counterexample: the single event's find returns zero occurrences and a
non-nil error, yet the measurement contains no timing at all — the error is
recorded nowhere, refuting the claimed placeholder. -/
theorem C6_counterexample :
    (c6Find c6Event).2 = some "boom" ∧
    c6Measurer.events = [c6Event] ∧
    (c6Measurer.measure c6Find).timings = [] :=
  ⟨rfl, rfl, by decide⟩

/-- C6 witness: a timing produced by an erroring find carries that error, and
an event whose find produced nothing contributes no timing. -/
theorem C6_find_errors_witness :
    c6wTiming.error = (c6wFind c6wTiming.event).2 ∧
    c6wTiming.event ≠ mkEvent "z" "z" false :=
  ⟨(C6_find_errors c6wMeasurer c6wFind).1 c6wTiming (by decide),
   (C6_find_errors c6wMeasurer c6wFind).2 (mkEvent "z" "z" false) (by decide) c6wTiming
     (by decide)⟩

/-- C7 (code-bug evaluation): `getMetadata` reads the `m.metadata` cache but
no code ever writes it, so a pass over a measurer with an empty cache and a
healthy IMDS client calls IMDS, leaves the measurer (hence the cache)
unchanged, and a second pass calls IMDS again — metadata resolution is not
memoized, contrary to the claim and to the intent evidenced by the cache
guard. The failure-swallowing half of the claim does hold: on a failing
client `Measure` still returns, with nil metadata. -/
theorem C7_metadata_not_memoized :
    (measurePassFull c7Measurer c7Find).2.2 = true ∧
    (measurePassFull c7Measurer c7Find).2.1 = c7Measurer ∧
    (measurePassFull (measurePassFull c7Measurer c7Find).2.1 c7Find).2.2 = true ∧
    (c7Measurer.measure c7Find).metadata = some c7Metadata ∧
    (c7FailMeasurer.measure c7Find).metadata = none :=
  ⟨rfl, rfl, rfl, by decide, by decide⟩

theorem getSource_set_events (m : Measurer) (evs : List Event) (name : String) :
    getSource { m with events := evs } name = getSource m name := rfl

theorem registerEvents_foldl (evs : List Event) : ∀ (m : Measurer) (errs : List String),
    List.foldl
      (fun acc e =>
        match getSource acc.1 e.srcName with
        | none => (acc.1, acc.2 ++ [registerErrMsg e])
        | some s => ({ acc.1 with events := acc.1.events ++ [{ e with src := some s }] }, acc.2))
      (m, errs) evs =
    ({ m with events := m.events ++ (evs.filterMap fun e =>
        (getSource m e.srcName).map fun s => { e with src := some s }) },
     errs ++ (evs.filter fun e => (getSource m e.srcName).isNone).map registerErrMsg) := by
  induction evs with
  | nil => intro m errs; simp
  | cons e es ih =>
    intro m errs
    simp only [List.foldl_cons]
    cases hs : getSource m e.srcName with
    | none =>
      simp only [hs]
      rw [ih m (errs ++ [registerErrMsg e])]
      simp [hs]
    | some s =>
      simp only [hs]
      rw [ih { m with events := m.events ++ [{ e with src := some s }] } errs]
      simp [hs, getSource_set_events]

/-- C8: for every batch passed to `RegisterEvents`, the events whose source
name resolves are bound to their source and appended in registration order,
the events whose source name is unregistered are skipped and each contributes
one accumulated error whose message contains the event's name, the source
registry is untouched, and the returned aggregate lists exactly the errors of
the skipped events in order (the empty list models the nil aggregate). -/
theorem C8_register_events (m : Measurer) (evs : List Event) :
    (registerEvents m evs).1.events =
      m.events ++ (evs.filterMap fun e =>
        (getSource m e.srcName).map fun s => { e with src := some s }) ∧
    (registerEvents m evs).1.sources = m.sources ∧
    (registerEvents m evs).2 =
      (evs.filter fun e => (getSource m e.srcName).isNone).map registerErrMsg ∧
    ∀ e : Event, ∃ p q : String, registerErrMsg e = p ++ (e.name ++ q) := by
  unfold registerEvents
  rw [registerEvents_foldl evs m []]
  refine ⟨rfl, rfl, by simp, ?_⟩
  intro e
  refine ⟨"unable to register event \x22",
    "\x22 because source \x22" ++
      (match e.src with
       | none => "%!s(<nil>)"
       | some s => s.name) ++ "\x22 is not registered", ?_⟩
  simp [registerErrMsg, String.append_assoc]

/-- C10: the completion decision counts error-free terminal timings without
regard to which terminal event produced them: with two registered terminal
events where `A` matches two occurrences (two error-free terminal timings)
and `B` never occurs, the driver completes on its first pass and returns a
measurement containing only `A`'s timings — the terminal event `B` was never
measured. -/
theorem C10_terminal_count_only :
    measureUntilGo c10Measurer c10FindSeq 5 1 = some c10Meas ∧
    untilDone c10Measurer.events c10Meas = true ∧
    c10Meas.timings.length = 2 ∧
    c10Meas.timings.all (fun t => t.event.name == "A") = true ∧
    c10Measurer.events.any (fun e => e.terminal && e.name == "B") = true ∧
    c10Meas.timings.all (fun t => !(t.event.name == "B")) = true :=
  ⟨by decide, by decide, rfl, by decide, by decide, by decide⟩

/-! ## Lemmas for the metric projection (C9) -/

theorem emitCW_fold_posts (meas : Measurement) (experiment : String)
    (put : String × List (String × String) × Int → Option String) :
    ∀ (l : List Timing) (acc : List (String × List (String × String) × Int) × List String),
      (List.foldl
        (fun acc t =>
          let datum := (t.event.metric, metricDimensions meas experiment, t.t)
          (acc.1 ++ [datum],
           match put datum with
           | some e => acc.2 ++ [e]
           | none => acc.2)) acc l).1 =
      acc.1 ++ (l.map fun t => (t.event.metric, metricDimensions meas experiment, t.t)) := by
  intro l
  induction l with
  | nil => intro acc; simp
  | cons x xs ih =>
    intro acc
    simp only [List.foldl_cons, List.map_cons]
    rw [ih]
    simp

theorem emitCW_posts (meas : Measurement) (experiment : String)
    (put : String × List (String × String) × Int → Option String) :
    (emitCloudWatchMetrics meas experiment put).1 =
      meas.timings.map fun t => (t.event.metric, metricDimensions meas experiment, t.t) := by
  unfold emitCloudWatchMetrics
  rw [emitCW_fold_posts meas experiment put meas.timings ([], [])]
  simp

theorem mem_uniqAux_metrics : ∀ (l : List Timing) (seen : List String) (t : Timing), t ∈ l →
    t.event.metric ∈ seen ∨
      t.event.metric ∈ ((uniqByMetricAux l seen).map fun u => u.event.metric) := by
  intro l
  induction l with
  | nil => intro seen t ht; cases ht
  | cons x xs ih =>
    intro seen t ht
    rcases List.mem_cons.mp ht with rfl | ht
    · by_cases hc : seen.contains t.event.metric = true
      · exact Or.inl (List.elem_iff.mp hc)
      · right
        simp only [uniqByMetricAux, if_neg hc]
        simp
    · by_cases hc : seen.contains x.event.metric = true
      · simpa only [uniqByMetricAux, if_pos hc] using ih seen t ht
      · simp only [uniqByMetricAux, if_neg hc]
        rcases ih (x.event.metric :: seen) t ht with h1 | h1
        · rcases List.mem_cons.mp h1 with heq | h2
          · right; rw [heq]; simp
          · exact Or.inl h2
        · right; simp [h1]

theorem foldl_ite_of_all {β : Type} (p : Timing → Bool) (f : β → Timing → β) :
    ∀ (l : List Timing) (st : β), (∀ t ∈ l, p t = true) →
      List.foldl (fun st t => if p t then f st t else st) st l = List.foldl f st l := by
  intro l
  induction l with
  | nil => intro st _; rfl
  | cons x xs ih =>
    intro st h
    simp only [List.foldl_cons, if_pos (h x (List.mem_cons_self x xs))]
    exact ih _ fun t ht => h t (List.mem_cons_of_mem x ht)

theorem registerMetrics_eq_fold (meas : Measurement) (experiment : String) :
    registerMetrics meas experiment =
      meas.timings.foldl
        (fun st t => promSet st t.event.metric (metricDimensions meas experiment) t.t) [] := by
  simp only [registerMetrics]
  refine foldl_ite_of_all _ _ meas.timings [] ?_
  intro t ht
  rcases mem_uniqAux_metrics meas.timings [] t ht with h | h
  · cases h
  · exact List.elem_iff.mpr h

theorem promSet_dims {st : List PromSample} {dims : List (String × String)}
    (h : ∀ s ∈ st, s.dims = dims) (name : String) (v : Int) :
    ∀ s ∈ promSet st name dims v, s.dims = dims := by
  intro s hs
  unfold promSet at hs
  split at hs
  · obtain ⟨u, hu, rfl⟩ := List.mem_map.mp hs
    split
    · exact h u hu
    · exact h u hu
  · rcases List.mem_append.mp hs with h1 | h1
    · exact h s h1
    · simp only [List.mem_singleton] at h1
      rw [h1]

theorem find_map_update : ∀ (st : List PromSample) (dims : List (String × String))
    (name : String) (v : Int),
    (∀ s ∈ st, s.dims = dims) →
    (st.any fun s => s.metric = name ∧ s.dims = dims) = true →
    List.find? (fun s => s.metric = name)
      (st.map fun s => if s.metric = name ∧ s.dims = dims then { s with value := v } else s) =
      some ⟨name, dims, v⟩ := by
  intro st
  induction st with
  | nil => intro dims name v _ hany; cases hany
  | cons a as ih =>
    intro dims name v h hany
    by_cases ha : a.metric = name ∧ a.dims = dims
    · obtain ⟨h1, h2⟩ := ha
      simp only [List.map_cons, if_pos (And.intro h1 h2)]
      simp [h1, h2]
    · have hmet : a.metric ≠ name := by
        intro hm
        exact ha ⟨hm, h a (List.mem_cons_self a as)⟩
      simp only [List.map_cons, if_neg ha]
      have hany2 : (as.any fun s => s.metric = name ∧ s.dims = dims) = true := by
        simp only [List.any_cons] at hany
        rcases Bool.or_eq_true_iff.mp hany with h1 | h1
        · exact absurd (of_decide_eq_true h1) ha
        · exact h1
      rw [List.find?_cons_of_neg _ (by simp [hmet])]
      exact ih dims name v (fun s hs => h s (List.mem_cons_of_mem a hs)) hany2

theorem find_none_of_not_any : ∀ (st : List PromSample) (dims : List (String × String))
    (name : String),
    (∀ s ∈ st, s.dims = dims) →
    (st.any fun s => s.metric = name ∧ s.dims = dims) = false →
    List.find? (fun s => s.metric = name) st = none := by
  intro st
  induction st with
  | nil => intro dims name _ _; rfl
  | cons a as ih =>
    intro dims name h hany
    simp only [List.any_cons, Bool.or_eq_false_iff] at hany
    have hmet : a.metric ≠ name := by
      intro hm
      have hd : (decide (a.metric = name ∧ a.dims = dims)) = true := by
        simp [hm, h a (List.mem_cons_self a as)]
      rw [hany.1] at hd
      cases hd
    rw [List.find?_cons_of_neg _ (by simp [hmet])]
    exact ih dims name (fun s hs => h s (List.mem_cons_of_mem a hs)) hany.2

theorem promLookup_promSet_self (st : List PromSample) (dims : List (String × String))
    (name : String) (v : Int) (h : ∀ s ∈ st, s.dims = dims) :
    promLookup (promSet st name dims v) name = some v := by
  unfold promSet promLookup
  cases hany : (st.any fun s => s.metric = name ∧ s.dims = dims) with
  | true =>
    rw [if_pos rfl, find_map_update st dims name v h hany]
    rfl
  | false =>
    rw [if_neg Bool.false_ne_true, List.find?_append,
      find_none_of_not_any st dims name h hany]
    simp

theorem promLookup_promSet_other (st : List PromSample) (dims : List (String × String))
    (name other : String) (v : Int) (hne : other ≠ name) :
    promLookup (promSet st name dims v) other = promLookup st other := by
  unfold promSet promLookup
  split
  · rename_i hany
    congr 1
    clear hany
    induction st with
    | nil => rfl
    | cons a as ih =>
      simp only [List.map_cons]
      by_cases hp : a.metric = other
      · have hcond : ¬ (a.metric = name ∧ a.dims = dims) := by
          intro hc
          exact hne (hp ▸ hc.1)
        rw [if_neg hcond, List.find?_cons_of_pos _ (by simp [hp]),
          List.find?_cons_of_pos _ (by simp [hp])]
      · have hcases : (if a.metric = name ∧ a.dims = dims then
            ({ a with value := v } : PromSample) else a).metric ≠ other := by
          split
          · exact hp
          · exact hp
        rw [List.find?_cons_of_neg _ (by simp [hcases]),
          List.find?_cons_of_neg _ (by simp [hp])]
        exact ih
  · congr 1
    rw [List.find?_append]
    cases hf : List.find? (fun s => s.metric = other) st with
    | some s => rfl
    | none =>
      simp [Ne.symm hne]

theorem promFold_dims (dims : List (String × String)) :
    ∀ (l : List Timing) (st : List PromSample),
      (∀ s ∈ st, s.dims = dims) →
      ∀ s ∈ List.foldl (fun st t => promSet st t.event.metric dims t.t) st l, s.dims = dims := by
  intro l
  induction l with
  | nil => intro st h; exact h
  | cons x xs ih =>
    intro st h
    simp only [List.foldl_cons]
    exact ih _ (promSet_dims h _ _)

theorem getLast?_eq_none_of : ∀ {l : List α}, l.getLast? = none → l = [] := by
  intro l h
  cases l with
  | nil => rfl
  | cons x xs =>
    exfalso
    induction xs generalizing x with
    | nil => cases h
    | cons y ys ih =>
      rw [List.getLast?_cons_cons] at h
      exact ih y h

theorem promFold_lookup (dims : List (String × String)) :
    ∀ (l : List Timing) (st : List PromSample),
      (∀ s ∈ st, s.dims = dims) → ∀ name,
      promLookup (List.foldl (fun st t => promSet st t.event.metric dims t.t) st l) name =
        match (l.filter fun t => t.event.metric = name).getLast? with
        | some t => some t.t
        | none => promLookup st name := by
  intro l
  induction l with
  | nil => intro st h name; simp
  | cons x xs ih =>
    intro st h name
    simp only [List.foldl_cons]
    rw [ih _ (promSet_dims h _ _) name]
    by_cases hx : x.event.metric = name
    · rw [List.filter_cons_of_pos (by simp [hx])]
      cases hf : xs.filter fun t => t.event.metric = name with
      | nil =>
        simp only [hf, List.getLast?_nil, List.getLast?_singleton]
        rw [← hx]
        exact promLookup_promSet_self st dims x.event.metric x.t h
      | cons y ys =>
        simp only [hf, List.getLast?_cons_cons]
        cases hg : (y :: ys).getLast? with
        | some t => rfl
        | none => cases getLast?_eq_none_of hg
    · rw [List.filter_cons_of_neg (by simp [hx])]
      cases hlast : (xs.filter fun t => t.event.metric = name).getLast? with
      | some t => rfl
      | none => exact promLookup_promSet_other st dims x.event.metric name x.t fun hh => hx hh.symm

/-- C9 (amended): every timing yields one independent CloudWatch sample,
carrying the per-measurement dimension set (experiment label plus, when
metadata is present, instance type, image id, region and availability zone)
and that timing's elapsed value; the Prometheus projection instead keeps a
single current value per metric identifier under that same dimension set —
the value of the *last* timing with that identifier, timings sharing an
identifier overwriting one another (see the counterexample). -/
theorem C9_metric_projection (meas : Measurement) (experiment : String)
    (put : String × List (String × String) × Int → Option String) :
    (emitCloudWatchMetrics meas experiment put).1 =
      (meas.timings.map fun t => (t.event.metric, metricDimensions meas experiment, t.t)) ∧
    (∀ s ∈ registerMetrics meas experiment, s.dims = metricDimensions meas experiment) ∧
    (∀ name : String, promLookup (registerMetrics meas experiment) name =
      ((meas.timings.filter fun t => t.event.metric = name).getLast?).map fun t => t.t) := by
  refine ⟨emitCW_posts meas experiment put, ?_, ?_⟩
  · rw [registerMetrics_eq_fold]
    exact promFold_dims _ meas.timings [] (fun s hs => absurd hs (List.not_mem_nil s))
  · intro name
    rw [registerMetrics_eq_fold,
      promFold_lookup _ meas.timings [] (fun s hs => absurd hs (List.not_mem_nil s)) name]
    cases hlast : (meas.timings.filter fun t => t.event.metric = name).getLast? with
    | some t => rfl
    | none => rfl

/-- C9 counterexample: an all-matches event contributing three timings with
the metric identifier `m` and one shared dimension set leaves the Prometheus
registry with a single sample (holding the last timing's value) — not three
independent samples, refuting the claim for the Prometheus projection, while
the CloudWatch emission does post three. -/
theorem C9_counterexample :
    c9Meas.timings.length = 3 ∧
    registerMetrics c9Meas "exp" = [⟨"m", [("experiment", "exp")], 30⟩] ∧
    (registerMetrics c9Meas "exp").length = 1 ∧
    (emitCloudWatchMetrics c9Meas "exp" fun _ => none).1.length = 3 :=
  ⟨rfl, by decide, by decide, by decide⟩

/-- C9 witness: on the three-timing fixture the single registered sample
carries the measurement's dimension set, and its value is the last timing's. -/
theorem C9_metric_projection_witness :
    c9Sample.dims = metricDimensions c9Meas "e9" ∧
    promLookup (registerMetrics c9Meas "e9") "m" = some 30 := by
  constructor
  · exact (C9_metric_projection c9Meas "e9" fun _ => none).2.1 c9Sample (by decide)
  · rw [(C9_metric_projection c9Meas "e9" fun _ => none).2.2 "m"]
    decide

end NLK

